import Mathlib

/-!
Verification development for the CleanURLs browser extension
(content-script core in `background.js`, class `URLCleaner`).

The development shallowly embeds the URL-rewriting engine:

* rule compilation (`URLCleaner.loadConfig`) with its empty-configuration
  default substitution and its whole-list fallback on compile failure;
* the rewrite core (`URLCleaner.cleanUrlString`): parse the URL, snapshot
  the query parameters, apply the first matching rule per parameter
  (delete on empty replacement, set otherwise), serialize;
* the dedup cache (`processedUrls`), the counter (`cleanedLinksCount`),
  `cleanSingleLink`, `cleanAllLinks` and `reloadConfig`.

Host-platform primitives used by the source (the WHATWG `URL` /
`URLSearchParams` object model and JavaScript `RegExp` matching) are
modelled explicitly.  The URL model covers the fragment of the WHATWG
behaviour the source exercises: absolute `scheme://host/path?query#frag`
URLs, relative references resolved against a base, the live
`searchParams` list whose mutations re-serialize the query component,
and raw-query preservation when no mutation occurs.  Percent-encoding,
userinfo/port normalization and exotic schemes are outside the model;
all concrete inputs used below stay inside it.
-/

namespace CleanURLs

/-! ## Character-list utilities -/

/-- Split a character list at the first occurrence of `c`.
Returns the part before the first `c` and, when `c` occurs,
the part after it. -/
def splitFirst (c : Char) : List Char → List Char × Option (List Char)
  | [] => ([], none)
  | x :: xs =>
    if x = c then ([], some xs)
    else
      let r := splitFirst c xs
      (x :: r.1, r.2)

@[simp] theorem splitFirst_nil (c : Char) : splitFirst c [] = ([], none) := rfl

theorem splitFirst_cons (c x : Char) (xs : List Char) :
    splitFirst c (x :: xs) =
      if x = c then ([], some xs)
      else ((x :: (splitFirst c xs).1, (splitFirst c xs).2)) := rfl

/-- Split a character list on every occurrence of `c`. -/
def splitOnChar (c : Char) : List Char → List (List Char)
  | [] => [[]]
  | x :: xs =>
    let r := splitOnChar c xs
    if x = c then [] :: r
    else
      match r with
      | [] => [[x]]
      | y :: ys => (x :: y) :: ys

@[simp] theorem splitOnChar_nil (c : Char) : splitOnChar c [] = [[]] := rfl

theorem splitOnChar_cons (c x : Char) (xs : List Char) :
    splitOnChar c (x :: xs) =
      if x = c then [] :: splitOnChar c xs
      else
        match splitOnChar c xs with
        | [] => [[x]]
        | y :: ys => (x :: y) :: ys := rfl

/-- Interleave the separator `c` between the pieces. -/
def joinWith (c : Char) : List (List Char) → List Char
  | [] => []
  | [x] => x
  | x :: y :: ys => x ++ c :: joinWith c (y :: ys)

/-- Take characters until one of `stops` is hit; return the taken part
and the remainder (which starts with a stop character if nonempty). -/
def takeUntilAny (stops : List Char) : List Char → List Char × List Char
  | [] => ([], [])
  | x :: xs =>
    if x ∈ stops then ([], x :: xs)
    else
      let r := takeUntilAny stops xs
      (x :: r.1, r.2)

@[simp] theorem takeUntilAny_nil (stops : List Char) : takeUntilAny stops [] = ([], []) := rfl

theorem takeUntilAny_cons (stops : List Char) (x : Char) (xs : List Char) :
    takeUntilAny stops (x :: xs) =
      if x ∈ stops then ([], x :: xs)
      else ((x :: (takeUntilAny stops xs).1, (takeUntilAny stops xs).2)) := rfl

/-- The directory part of a path: everything up to and including the
last slash (empty if there is no slash). -/
def dirOf (l : List Char) : List Char :=
  (l.reverse.dropWhile (fun c => c != '/')).reverse

theorem splitFirst_of_not_mem {c : Char} {l : List Char} (h : c ∉ l) :
    splitFirst c l = (l, none) := by
  induction l with
  | nil => rfl
  | cons x xs ih =>
    have hx : ¬ x = c := fun he => h (he ▸ List.mem_cons_self x xs)
    have hxs : c ∉ xs := fun hm => h (List.mem_cons_of_mem _ hm)
    rw [splitFirst_cons, if_neg hx, ih hxs]

theorem splitFirst_append {c : Char} {a : List Char} (b : List Char)
    (h : c ∉ a) : splitFirst c (a ++ c :: b) = (a, some b) := by
  induction a with
  | nil => simp [splitFirst_cons]
  | cons x xs ih =>
    have hx : ¬ x = c := fun he => h (he ▸ List.mem_cons_self x xs)
    have hxs : c ∉ xs := fun hm => h (List.mem_cons_of_mem _ hm)
    rw [List.cons_append, splitFirst_cons, if_neg hx, ih hxs]

theorem splitFirst_none {c : Char} {l : List Char}
    (h : (splitFirst c l).2 = none) : (splitFirst c l).1 = l ∧ c ∉ l := by
  induction l with
  | nil => simp
  | cons x xs ih =>
    by_cases hx : x = c
    · rw [splitFirst_cons, if_pos hx] at h
      simp at h
    · rw [splitFirst_cons, if_neg hx] at h ⊢
      rcases ih h with ⟨h1, h2⟩
      refine ⟨by simp [h1], ?_⟩
      intro hm
      rcases List.mem_cons.mp hm with he | hm2
      · exact hx he.symm
      · exact h2 hm2

theorem splitFirst_some {c : Char} {l a b : List Char}
    (h : splitFirst c l = (a, some b)) : l = a ++ c :: b ∧ c ∉ a := by
  induction l generalizing a with
  | nil =>
    rw [splitFirst_nil, Prod.mk.injEq] at h
    exact absurd h.2 (by simp)
  | cons x xs ih =>
    by_cases hx : x = c
    · rw [splitFirst_cons, if_pos hx, Prod.mk.injEq] at h
      obtain ⟨ha, hb⟩ := h
      have hxs : xs = b := Option.some.inj hb
      subst hxs
      rw [← ha]
      simp [hx]
    · rw [splitFirst_cons, if_neg hx, Prod.mk.injEq] at h
      obtain ⟨ha, hb⟩ := h
      have hr : splitFirst c xs = ((splitFirst c xs).1, some b) := by
        rw [← hb]
      rcases ih hr with ⟨h3, h4⟩
      rw [← ha]
      constructor
      · rw [List.cons_append, ← h3]
      · intro hm
        rcases List.mem_cons.mp hm with he | hm2
        · exact hx he.symm
        · exact h4 hm2

theorem splitOnChar_ne_nil (c : Char) (l : List Char) :
    splitOnChar c l ≠ [] := by
  cases l with
  | nil => simp
  | cons x xs =>
    rw [splitOnChar_cons]
    by_cases hx : x = c
    · simp [hx]
    · rw [if_neg hx]
      cases splitOnChar c xs <;> simp

theorem splitOnChar_pieces {c : Char} {l : List Char} :
    ∀ p ∈ splitOnChar c l, c ∉ p ∧ ∀ x ∈ p, x ∈ l := by
  induction l with
  | nil =>
    intro p hp
    simp at hp
    simp [hp]
  | cons x xs ih =>
    intro p hp
    by_cases hx : x = c
    · rw [splitOnChar_cons, if_pos hx] at hp
      rcases List.mem_cons.mp hp with he | hm
      · simp [he]
      · rcases ih p hm with ⟨h1, h2⟩
        exact ⟨h1, fun y hy => List.mem_cons_of_mem _ (h2 y hy)⟩
    · rw [splitOnChar_cons, if_neg hx] at hp
      rcases hr : splitOnChar c xs with _ | ⟨y, ys⟩
      · exact absurd hr (splitOnChar_ne_nil c xs)
      · rw [hr] at hp
        rcases List.mem_cons.mp hp with he | hm
        · subst he
          have hy := ih y (hr ▸ List.mem_cons_self y ys)
          constructor
          · intro hm
            rcases List.mem_cons.mp hm with he2 | hm2
            · exact hx he2.symm
            · exact hy.1 hm2
          · intro z hz
            rcases List.mem_cons.mp hz with he2 | hm2
            · exact he2 ▸ List.mem_cons_self x xs
            · exact List.mem_cons_of_mem _ (hy.2 z hm2)
        · have := ih p (hr ▸ List.mem_cons_of_mem y hm)
          exact ⟨this.1, fun z hz => List.mem_cons_of_mem _ (this.2 z hz)⟩

theorem splitOnChar_of_not_mem {c : Char} {l : List Char} (h : c ∉ l) :
    splitOnChar c l = [l] := by
  induction l with
  | nil => rfl
  | cons x xs ih =>
    have hx : ¬ x = c := fun he => h (he ▸ List.mem_cons_self x xs)
    have hxs : c ∉ xs := fun hm => h (List.mem_cons_of_mem _ hm)
    rw [splitOnChar_cons, if_neg hx, ih hxs]

theorem splitOnChar_append {c : Char} {a : List Char} (r : List Char)
    (h : c ∉ a) : splitOnChar c (a ++ c :: r) = a :: splitOnChar c r := by
  induction a with
  | nil => simp [splitOnChar_cons]
  | cons x xs ih =>
    have hx : ¬ x = c := fun he => h (he ▸ List.mem_cons_self x xs)
    have hxs : c ∉ xs := fun hm => h (List.mem_cons_of_mem _ hm)
    rw [List.cons_append, splitOnChar_cons, if_neg hx, ih hxs]

theorem joinWith_round {c : Char} {ps : List (List Char)}
    (hne : ps ≠ []) (h : ∀ p ∈ ps, c ∉ p) :
    splitOnChar c (joinWith c ps) = ps := by
  induction ps with
  | nil => exact absurd rfl hne
  | cons x xs ih =>
    cases xs with
    | nil =>
      show splitOnChar c x = [x]
      exact splitOnChar_of_not_mem (h x (List.mem_cons_self x []))
    | cons y ys =>
      have hx : c ∉ x := h x (List.mem_cons_self _ _)
      have hrest : ∀ p ∈ y :: ys, c ∉ p := fun p hp => h p (List.mem_cons_of_mem _ hp)
      have hr := ih (by simp) hrest
      show splitOnChar c (x ++ c :: joinWith c (y :: ys)) = x :: (y :: ys)
      rw [splitOnChar_append _ hx, hr]

theorem joinWith_mem {c : Char} {ps : List (List Char)} {x : Char}
    (h : x ∈ joinWith c ps) : x = c ∨ ∃ p ∈ ps, x ∈ p := by
  induction ps with
  | nil => simp [joinWith] at h
  | cons a xs ih =>
    cases xs with
    | nil =>
      exact Or.inr ⟨a, List.mem_cons_self _ _, h⟩
    | cons b ys =>
      have h2 : x ∈ a ++ c :: joinWith c (b :: ys) := h
      rcases List.mem_append.mp h2 with ha | hb
      · exact Or.inr ⟨a, List.mem_cons_self _ _, ha⟩
      · rcases List.mem_cons.mp hb with he | hm
        · exact Or.inl he
        · rcases ih hm with he | ⟨p, hp, hxp⟩
          · exact Or.inl he
          · exact Or.inr ⟨p, List.mem_cons_of_mem _ hp, hxp⟩

theorem takeUntilAny_append {stops : List Char} {a : List Char} (b : List Char)
    (ha : ∀ x ∈ a, x ∉ stops)
    (hb : ∀ y ∈ b.head?, y ∈ stops) :
    takeUntilAny stops (a ++ b) = (a, b) := by
  induction a with
  | nil =>
    cases b with
    | nil => rfl
    | cons y ys =>
      have := hb y (by simp)
      simp [takeUntilAny_cons, this]
  | cons x xs ih =>
    have hx := ha x (List.mem_cons_self x xs)
    have hxs : ∀ z ∈ xs, z ∉ stops := fun z hz => ha z (List.mem_cons_of_mem _ hz)
    rw [List.cons_append, takeUntilAny_cons, if_neg hx, ih hxs]

theorem takeUntilAny_spec (stops : List Char) (l : List Char) :
    l = (takeUntilAny stops l).1 ++ (takeUntilAny stops l).2 ∧
    (∀ x ∈ (takeUntilAny stops l).1, x ∉ stops) ∧
    (∀ y ∈ (takeUntilAny stops l).2.head?, y ∈ stops) := by
  induction l with
  | nil => simp
  | cons x xs ih =>
    by_cases hx : x ∈ stops
    · rw [takeUntilAny_cons, if_pos hx]
      simp [hx]
    · rw [takeUntilAny_cons, if_neg hx]
      rcases ih with ⟨h1, h2, h3⟩
      refine ⟨by simpa using h1, ?_, h3⟩
      intro z hz
      rcases List.mem_cons.mp hz with he | hm
      · exact he ▸ hx
      · exact h2 z hm

theorem dirOf_append (l : List Char) :
    dirOf l ++ (l.reverse.takeWhile (fun c => c != '/')).reverse = l := by
  have h := List.takeWhile_append_dropWhile (p := fun c => c != '/') (l := l.reverse)
  rw [dirOf, ← List.reverse_append, h, List.reverse_reverse]

theorem dirOf_prefix (l : List Char) : ∃ t, dirOf l ++ t = l :=
  ⟨_, dirOf_append l⟩

theorem dirOf_head {l : List Char} (h : l.head? = some '/') :
    (dirOf l).head? = some '/' := by
  have hne : l.reverse.dropWhile (fun c => c != '/') ≠ [] := by
    intro hnil
    rw [List.dropWhile_eq_nil_iff] at hnil
    cases l with
    | nil => simp at h
    | cons x xs =>
      have hx : x = '/' := by simpa using h
      have hmem : x ∈ (x :: xs).reverse := by simp
      have := hnil x hmem
      simp [hx] at this
  rcases he : dirOf l with _ | ⟨z, zs⟩
  · exfalso
    have : dirOf l ≠ [] := by
      rw [dirOf]
      simpa using hne
    exact this he
  · have happ := dirOf_append l
    rw [he] at happ
    cases l with
    | nil => simp at h
    | cons x xs =>
      have hx : x = '/' := by simpa using h
      have hz : z = x := by
        have := congrArg List.head? happ
        simpa using this
      simp [hz, hx]

theorem dirOf_mem {l : List Char} {x : Char} (h : x ∈ dirOf l) : x ∈ l := by
  rcases dirOf_prefix l with ⟨t, ht⟩
  rw [← ht]
  exact List.mem_append_left _ h

/-! ## Query-string codec (model of WHATWG application/x-www-form-urlencoded
parsing as used by `URLSearchParams`, minus percent-decoding) -/

/-- Parse one nonempty `key=value` segment: split at the first `=`;
a segment without `=` yields the empty value. -/
def parseSeg (seg : List Char) : String × String :=
  match splitFirst '=' seg with
  | (k, some v) => (String.mk k, String.mk v)
  | (k, none) => (String.mk k, "")

/-- Parse a raw query into its parameter list: split on `&`,
skip empty segments, split each segment at its first `=`. -/
def parseQuery (q : List Char) : List (String × String) :=
  (splitOnChar '&' q).filterMap (fun seg => if seg = [] then none else some (parseSeg seg))

/-- Serialize a parameter list back into a raw query
(the `URLSearchParams` serializer, minus percent-encoding). -/
def serializeQuery (ps : List (String × String)) : List Char :=
  joinWith '&' (ps.map (fun p => p.1.data ++ '=' :: p.2.data))

/-- Wellformedness of one parameter pair for this codec: the key is free
of `&`, `=` and `#`; the value is free of `&` and `#` (values may
contain `=`, which round-trips through the first-`=` split). -/
def entryWF (p : String × String) : Prop :=
  '&' ∉ p.1.data ∧ '=' ∉ p.1.data ∧ '#' ∉ p.1.data ∧ '&' ∉ p.2.data ∧ '#' ∉ p.2.data

instance (p : String × String) : Decidable (entryWF p) := by
  unfold entryWF
  infer_instance

@[simp] theorem parseQuery_nil : parseQuery [] = [] := rfl

theorem parseQuery_entryWF {q : List Char} (hq : '#' ∉ q) :
    ∀ p ∈ parseQuery q, entryWF p := by
  intro p hp
  rw [parseQuery, List.mem_filterMap] at hp
  obtain ⟨seg, hseg, hps⟩ := hp
  by_cases hno : seg = []
  · simp [hno] at hps
  · rw [if_neg hno] at hps
    have hps2 : parseSeg seg = p := Option.some.inj hps
    obtain ⟨hamp, hsub⟩ := splitOnChar_pieces seg hseg
    have hhash : '#' ∉ seg := fun hm => hq (hsub _ hm)
    rw [parseSeg] at hps2
    rcases hsp : splitFirst '=' seg with ⟨k, vo⟩
    cases vo with
    | none =>
      rw [hsp] at hps2
      rcases splitFirst_none (l := seg) (c := '=') (by rw [hsp]) with ⟨hk, hkeq⟩
      rw [hsp] at hk
      subst hk
      rw [← hps2]
      exact ⟨hamp, hkeq, hhash, by simp, by simp⟩
    | some v =>
      rw [hsp] at hps2
      rcases splitFirst_some hsp with ⟨hseq, hkeq⟩
      rw [← hps2]
      refine ⟨?_, hkeq, ?_, ?_, ?_⟩
      · intro hm
        exact hamp (hseq ▸ List.mem_append_left _ hm)
      · intro hm
        exact hhash (hseq ▸ List.mem_append_left _ hm)
      · intro hm
        exact hamp (hseq ▸ List.mem_append_right _ (List.mem_cons_of_mem _ hm))
      · intro hm
        exact hhash (hseq ▸ List.mem_append_right _ (List.mem_cons_of_mem _ hm))

theorem serializeQuery_mem {ps : List (String × String)} {x : Char}
    (h : x ∈ serializeQuery ps) :
    x = '&' ∨ ∃ p ∈ ps, x ∈ p.1.data ∨ x = '=' ∨ x ∈ p.2.data := by
  rw [serializeQuery] at h
  rcases joinWith_mem h with he | ⟨piece, hpiece, hx⟩
  · exact Or.inl he
  · rw [List.mem_map] at hpiece
    obtain ⟨p, hp, hpe⟩ := hpiece
    subst hpe
    rcases List.mem_append.mp hx with h1 | h2
    · exact Or.inr ⟨p, hp, Or.inl h1⟩
    · rcases List.mem_cons.mp h2 with he | hm
      · exact Or.inr ⟨p, hp, Or.inr (Or.inl he)⟩
      · exact Or.inr ⟨p, hp, Or.inr (Or.inr hm)⟩

theorem serializeQuery_no_hash {ps : List (String × String)}
    (h : ∀ p ∈ ps, entryWF p) : '#' ∉ serializeQuery ps := by
  intro hm
  rcases serializeQuery_mem hm with he | ⟨p, hp, hcase⟩
  · exact absurd he (by decide)
  · rcases h p hp with ⟨_, _, hk, _, hv⟩
    rcases hcase with h1 | h2 | h3
    · exact hk h1
    · exact absurd h2 (by decide)
    · exact hv h3

theorem parseSeg_entry {p : String × String} (h : '=' ∉ p.1.data) :
    parseSeg (p.1.data ++ '=' :: p.2.data) = p := by
  rw [parseSeg, splitFirst_append _ h]

theorem filterMap_parseSeg {ps : List (String × String)}
    (h : ∀ p ∈ ps, entryWF p) :
    (ps.map (fun p => p.1.data ++ '=' :: p.2.data)).filterMap
      (fun seg => if seg = [] then none else some (parseSeg seg)) = ps := by
  induction ps with
  | nil => rfl
  | cons p rest ih =>
    have hp := h p (List.mem_cons_self _ _)
    have hrest : ∀ x ∈ rest, entryWF x := fun x hx => h x (List.mem_cons_of_mem _ hx)
    rw [List.map_cons, List.filterMap_cons]
    have hnonempty : ¬ (p.1.data ++ '=' :: p.2.data) = [] := by simp
    rw [if_neg hnonempty, parseSeg_entry hp.2.1, ih hrest]

theorem parseQuery_round {ps : List (String × String)}
    (hne : ps ≠ []) (h : ∀ p ∈ ps, entryWF p) :
    parseQuery (serializeQuery ps) = ps := by
  have hpieces : ∀ piece ∈ ps.map (fun p => p.1.data ++ '=' :: p.2.data), '&' ∉ piece := by
    intro piece hp
    rw [List.mem_map] at hp
    obtain ⟨p, hpm, hpe⟩ := hp
    subst hpe
    rcases h p hpm with ⟨hk, _, _, hv, _⟩
    intro hm
    rcases List.mem_append.mp hm with h1 | h2
    · exact hk h1
    · rcases List.mem_cons.mp h2 with he | hm2
      · exact absurd he (by decide)
      · exact hv hm2
  have hmapne : ps.map (fun p => p.1.data ++ '=' :: p.2.data) ≠ [] := by
    simpa using hne
  rw [parseQuery, serializeQuery, joinWith_round hmapne hpieces]
  exact filterMap_parseSeg h

/-! ## URL object model (the WHATWG `URL` behaviour used by
`cleanUrlString`: construction with a base, the live `searchParams`
list, `delete`/`set`, and `toString`) -/

/-- Model of the `URL` object as used by the source: components plus the
live `searchParams` list (`params`).  `query` is the raw query component
(`none` when absent); every `searchParams` mutation re-serializes it,
while an unmutated URL keeps the raw query it was parsed with. -/
structure JSURL where
  scheme : String
  host : String
  path : String
  params : List (String × String)
  query : Option String
  fragment : Option String
deriving DecidableEq

/-- Detect an absolute `scheme://` reference: a nonempty all-alphabetic
scheme, a colon, and two slashes.  Returns the scheme and the remainder
after `//`. -/
def looksAbsoluteSplit (l : List Char) : Option (List Char × List Char) :=
  match splitFirst ':' l with
  | (scheme, some rest) =>
    match rest with
    | '/' :: '/' :: tail =>
      if scheme = [] then none
      else if scheme.all Char.isAlpha then some (scheme, tail) else none
    | _ => none
  | (_, none) => none

/-- Parse an absolute URL `scheme://host/path?query#fragment`.
Fails (like the `URL` constructor throws) when the host is empty. -/
def parseAbsChars (l : List Char) : Option JSURL :=
  match looksAbsoluteSplit l with
  | none => none
  | some st =>
    let hr := takeUntilAny ['/', '?', '#'] st.2
    if hr.1 = [] then none
    else
      let bf := splitFirst '#' hr.2
      let pq := splitFirst '?' bf.1
      some { scheme := String.mk st.1
             host := String.mk hr.1
             path := String.mk (if pq.1 = [] then ['/'] else pq.1)
             params := parseQuery (pq.2.getD [])
             query := pq.2.map String.mk
             fragment := bf.2.map String.mk }

/-- Resolve a relative reference against an already-parsed base:
fragment-only and query-only references keep the base's other
components; absolute paths replace the base path; other references are
resolved against the base path's directory. -/
def resolveRel (b : JSURL) (l : List Char) : JSURL :=
  let bf := splitFirst '#' l
  match bf.1 with
  | [] => { b with fragment := bf.2.map String.mk }
  | '?' :: qchars =>
    { b with params := parseQuery qchars
             query := some (String.mk qchars)
             fragment := bf.2.map String.mk }
  | _ =>
    let pq := splitFirst '?' bf.1
    let path := if pq.1.head? = some '/' then pq.1 else dirOf b.path.data ++ pq.1
    { scheme := b.scheme
      host := b.host
      path := String.mk path
      params := parseQuery (pq.2.getD [])
      query := pq.2.map String.mk
      fragment := bf.2.map String.mk }

/-- Model of `new URL(urlStr, base)`: an absolute-looking reference is
parsed on its own (and fails hard on an empty host); anything else is
resolved relative to the base, failing when the base itself does not
parse. -/
def parseURL (s base : String) : Option JSURL :=
  match looksAbsoluteSplit s.data with
  | some _ => parseAbsChars s.data
  | none =>
    match parseAbsChars base.data with
    | none => none
    | some b => some (resolveRel b s.data)

/-- The serialized query component: `?` plus the raw query when
present, nothing when absent. -/
def optQueryPart : Option (List Char) → List Char
  | none => []
  | some q => '?' :: q

/-- The serialized fragment component: `#` plus the fragment when
present, nothing when absent. -/
def optFragPart : Option (List Char) → List Char
  | none => []
  | some f => '#' :: f

@[simp] theorem optQueryPart_none : optQueryPart none = [] := rfl
@[simp] theorem optQueryPart_some (q : List Char) : optQueryPart (some q) = '?' :: q := rfl
@[simp] theorem optFragPart_none : optFragPart none = [] := rfl
@[simp] theorem optFragPart_some (f : List Char) : optFragPart (some f) = '#' :: f := rfl

/-- Model of `url.toString()`: serialize the components; the query
component is emitted verbatim when present. -/
def urlToString (u : JSURL) : String :=
  String.mk (u.scheme.data ++ ':' :: '/' :: '/' ::
    (u.host.data ++ u.path.data
      ++ optQueryPart (u.query.map String.data)
      ++ optFragPart (u.fragment.map String.data)))

/-- WHATWG `URLSearchParams.set` on the underlying list: replace the
value of the first pair with the given name and drop the other pairs
with that name; append when the name is absent. -/
def setParam (k v : String) : List (String × String) → List (String × String)
  | [] => [(k, v)]
  | p :: rest =>
    if p.1 = k then (k, v) :: rest.filter (fun q => decide (q.1 ≠ k))
    else p :: setParam k v rest

/-- All pairs of the list with the given key, in order. -/
def lookupKey (k : String) (ps : List (String × String)) : List (String × String) :=
  ps.filter (fun p => decide (p.1 = k))

/-- Model of `url.searchParams.delete(key)`: drop every pair with that
name and re-serialize the query (null when the list empties). -/
def urlDeleteParam (k : String) (u : JSURL) : JSURL :=
  let ps := u.params.filter (fun p => decide (p.1 ≠ k))
  { u with params := ps
           query := if ps = [] then none else some (String.mk (serializeQuery ps)) }

/-- Model of `url.searchParams.set(key, value)`: update the list and
re-serialize the query. -/
def urlSetParam (k v : String) (u : JSURL) : JSURL :=
  let ps := setParam k v u.params
  { u with params := ps
           query := some (String.mk (serializeQuery ps)) }

/-- Wellformedness of a URL value for this model: the invariants every
`parseURL` result satisfies and that deletions preserve; they make
`urlToString` and `parseURL` mutually inverse. -/
def urlWF (u : JSURL) : Prop :=
  u.scheme.data ≠ [] ∧
  (∀ c ∈ u.scheme.data, c.isAlpha = true) ∧
  u.host.data ≠ [] ∧
  (∀ c ∈ u.host.data, c ≠ '/' ∧ c ≠ '?' ∧ c ≠ '#') ∧
  u.path.data.head? = some '/' ∧
  (∀ c ∈ u.path.data, c ≠ '?' ∧ c ≠ '#') ∧
  (∀ q, u.query = some q → '#' ∉ q.data) ∧
  u.params = parseQuery ((u.query.map String.data).getD []) ∧
  (∀ p ∈ u.params, entryWF p)

instance (u : JSURL) : Decidable (urlWF u) := by
  unfold urlWF
  infer_instance

theorem string_mk_data (s : String) : String.mk s.data = s := rfl

theorem option_mk_data (o : Option String) : (o.map String.data).map String.mk = o := by
  cases o <;> rfl

theorem looksAbsoluteSplit_some {l : List Char} {st : List Char × List Char}
    (h : looksAbsoluteSplit l = some st) :
    st.1 ≠ [] ∧ (∀ c ∈ st.1, c.isAlpha = true) := by
  unfold looksAbsoluteSplit at h
  rcases hsp : splitFirst ':' l with ⟨sch, vo⟩
  rw [hsp] at h
  cases vo with
  | none => simp at h
  | some rest =>
    rcases rest with _ | ⟨r1, rs⟩
    · simp at h
    · rcases rs with _ | ⟨r2, tail⟩
      · revert h
        by_cases h1 : r1 = '/' <;> simp [h1]
      · by_cases h1 : r1 = '/'
        · by_cases h2 : r2 = '/'
          · subst h1; subst h2
            simp only [] at h
            split_ifs at h with he ha
            · have := Option.some.inj h
              rw [← this]
              exact ⟨he, List.all_eq_true.mp ha⟩
          · revert h
            simp [h2]
        · revert h
          simp [h1]

theorem looksAbsoluteSplit_build {sch : List Char} (rest : List Char)
    (hne : sch ≠ []) (halpha : ∀ c ∈ sch, c.isAlpha = true) :
    looksAbsoluteSplit (sch ++ ':' :: '/' :: '/' :: rest) = some (sch, rest) := by
  have hcolon : ':' ∉ sch := by
    intro hm
    have := halpha ':' hm
    simp at this
  unfold looksAbsoluteSplit
  rw [splitFirst_append _ hcolon]
  simp only [hne, List.all_eq_true.mpr halpha]
  simp


theorem splitFirst_fst_not_mem (c : Char) (l : List Char) :
    c ∉ (splitFirst c l).1 := by
  induction l with
  | nil => simp
  | cons x xs ih =>
    rw [splitFirst_cons]
    by_cases hx : x = c
    · simp [hx]
    · rw [if_neg hx]
      intro hm
      rcases List.mem_cons.mp hm with he | hm2
      · exact hx he.symm
      · exact ih hm2

theorem splitFirst_fst_subset (c : Char) (l : List Char) :
    ∀ x ∈ (splitFirst c l).1, x ∈ l := by
  induction l with
  | nil => simp
  | cons x xs ih =>
    rw [splitFirst_cons]
    by_cases hx : x = c
    · simp [hx]
    · rw [if_neg hx]
      intro z hz
      rcases List.mem_cons.mp hz with he | hm2
      · exact he ▸ List.mem_cons_self _ _
      · exact List.mem_cons_of_mem _ (ih z hm2)

theorem splitFirst_snd_subset {c : Char} {l b : List Char}
    (h : (splitFirst c l).2 = some b) : ∀ x ∈ b, x ∈ l := by
  have h2 : splitFirst c l = ((splitFirst c l).1, some b) := by rw [← h]
  rcases splitFirst_some h2 with ⟨h3, _⟩
  intro x hx
  rw [h3]
  exact List.mem_append_right _ (List.mem_cons_of_mem _ hx)

theorem splitFirst_head_eq {c : Char} {l : List Char}
    (h : (splitFirst c l).1 ≠ []) : (splitFirst c l).1.head? = l.head? := by
  cases l with
  | nil => simp
  | cons x xs =>
    rw [splitFirst_cons] at h ⊢
    by_cases hx : x = c
    · rw [if_pos hx] at h
      exact absurd rfl h
    · rw [if_neg hx]
      rfl

theorem splitFirst_fst_nil_of_head {c : Char} {l : List Char}
    (h : l.head? = some c) : (splitFirst c l).1 = [] := by
  cases l with
  | nil => simp at h
  | cons x xs =>
    have hx : x = c := by simpa using h
    rw [splitFirst_cons, if_pos hx]

theorem parseAbsChars_WF {l : List Char} {u : JSURL}
    (h : parseAbsChars l = some u) : urlWF u := by
  unfold parseAbsChars at h
  rcases hla : looksAbsoluteSplit l with _ | st
  · rw [hla] at h; simp at h
  · rw [hla] at h
    simp only [] at h
    rcases looksAbsoluteSplit_some hla with ⟨hs1, hs2⟩
    rcases takeUntilAny_spec ['/', '?', '#'] st.2 with ⟨hsplit, hhc, hhd⟩
    set hr := takeUntilAny ['/', '?', '#'] st.2 with hhr
    set bf := splitFirst '#' hr.2 with hbf
    set pq := splitFirst '?' bf.1 with hpq
    by_cases hhost : hr.1 = []
    · rw [if_pos hhost] at h; simp at h
    rw [if_neg hhost] at h
    rw [Option.some.injEq] at h
    subst h
    have hbf1_nohash : '#' ∉ bf.1 := hbf ▸ splitFirst_fst_not_mem '#' hr.2
    have hbf1_sub : ∀ x ∈ bf.1, x ∈ hr.2 := hbf ▸ splitFirst_fst_subset '#' hr.2
    have hpq1_noq : '?' ∉ pq.1 := hpq ▸ splitFirst_fst_not_mem '?' bf.1
    have hpq1_sub : ∀ x ∈ pq.1, x ∈ bf.1 := hpq ▸ splitFirst_fst_subset '?' bf.1
    have hq_nohash : ∀ q, pq.2 = some q → '#' ∉ q := by
      intro q hqe hm
      exact hbf1_nohash (splitFirst_snd_subset (hpq ▸ hqe) '#' hm)
    refine ⟨by simpa using hs1, by simpa using hs2, by simpa using hhost, ?_, ?_, ?_, ?_, ?_, ?_⟩
    · intro c hc
      have := hhc c (by simpa using hc)
      simp at this
      exact ⟨this.1, this.2.1, this.2.2⟩
    · show (if pq.1 = [] then ['/'] else pq.1).head? = some '/'
      by_cases hp : pq.1 = []
      · simp [hp]
      · rw [if_neg hp]
        have hbf1_ne : bf.1 ≠ [] := by
          intro hnil
          rw [hpq, hnil] at hp
          exact hp rfl
        have h1 : pq.1.head? = bf.1.head? := hpq ▸ splitFirst_head_eq (hpq ▸ hp)
        have h2 : bf.1.head? = hr.2.head? := hbf ▸ splitFirst_head_eq (hbf ▸ hbf1_ne)
        rcases hr2 : hr.2 with _ | ⟨y, ys⟩
        · rw [hr2] at h2
          simp at h2
          exact absurd h2 hbf1_ne
        · have hy : y ∈ ['/', '?', '#'] := hhd y (by rw [hr2]; rfl)
          have hhead : pq.1.head? = some y := by
            rw [h1, h2, hr2]; rfl
          rcases (by simpa using hy : y = '/' ∨ y = '?' ∨ y = '#') with hc | hc | hc
          · rw [hc] at hhead; exact hhead
          · exfalso
            apply hp
            apply hpq ▸ splitFirst_fst_nil_of_head
            rw [h2, hr2, hc]
            rfl
          · exfalso
            apply hbf1_ne
            apply hbf ▸ splitFirst_fst_nil_of_head
            rw [hr2, hc]
            rfl
    · show ∀ c ∈ (if pq.1 = [] then ['/'] else pq.1), c ≠ '?' ∧ c ≠ '#'
      by_cases hp : pq.1 = []
      · rw [if_pos hp]
        intro c hc
        have : c = '/' := by simpa using hc
        subst this
        decide
      · rw [if_neg hp]
        intro c hc
        constructor
        · intro he; exact hpq1_noq (he ▸ hc)
        · intro he; exact hbf1_nohash (he ▸ hpq1_sub c hc)
    · show ∀ q, pq.2.map String.mk = some q → '#' ∉ q.data
      intro q hqe
      rcases hq2 : pq.2 with _ | qc
      · rw [hq2] at hqe; simp at hqe
      · rw [hq2] at hqe
        have : String.mk qc = q := by simpa using hqe
        rw [← this]
        exact hq_nohash qc hq2
    · show parseQuery (pq.2.getD []) = parseQuery (((pq.2.map String.mk).map String.data).getD [])
      congr 1
      rcases pq.2 <;> rfl
    · show ∀ p ∈ parseQuery (pq.2.getD []), entryWF p
      apply parseQuery_entryWF
      rcases hq2 : pq.2 with _ | qc
      · simp
      · simpa using hq_nohash qc hq2

theorem head?_append_of_ne_nil {α : Type} {l : List α} (l' : List α) (h : l ≠ []) :
    (l ++ l').head? = l.head? := by
  cases l with
  | nil => exact absurd rfl h
  | cons x xs => rfl

theorem resolveRel_WF {b : JSURL} (hb : urlWF b) (l : List Char) :
    urlWF (resolveRel b l) := by
  obtain ⟨hb1, hb2, hb3, hb4, hb5, hb6, hb7, hb8, hb9⟩ := hb
  have hbf1_nohash : '#' ∉ (splitFirst '#' l).1 := splitFirst_fst_not_mem '#' l
  unfold resolveRel
  simp only []
  split
  · exact ⟨hb1, hb2, hb3, hb4, hb5, hb6, hb7, hb8, hb9⟩
  · rename_i qchars heq
    have hqsub : ∀ x ∈ qchars, x ∈ (splitFirst '#' l).1 := by
      intro x hx
      rw [heq]
      exact List.mem_cons_of_mem _ hx
    have hqnohash : '#' ∉ qchars := fun hm => hbf1_nohash (hqsub _ hm)
    refine ⟨hb1, hb2, hb3, hb4, hb5, hb6, ?_, ?_, ?_⟩
    · intro q hq
      have : String.mk qchars = q := by simpa using hq
      rw [← this]
      exact hqnohash
    · rfl
    · exact parseQuery_entryWF hqnohash
  · rename_i heq1 heq2
    set pq := splitFirst '?' (splitFirst '#' l).1 with hpq
    have hpq1_noq : '?' ∉ pq.1 := hpq ▸ splitFirst_fst_not_mem '?' _
    have hpq1_sub : ∀ x ∈ pq.1, x ∈ (splitFirst '#' l).1 :=
      hpq ▸ splitFirst_fst_subset '?' _
    have hq_nohash : ∀ q, pq.2 = some q → '#' ∉ q := by
      intro q hqe hm
      exact hbf1_nohash (splitFirst_snd_subset (hpq ▸ hqe) '#' hm)
    refine ⟨hb1, hb2, hb3, hb4, ?_, ?_, ?_, ?_, ?_⟩
    · show (if pq.1.head? = some '/' then pq.1 else dirOf b.path.data ++ pq.1).head? = some '/'
      by_cases hp : pq.1.head? = some '/'
      · rw [if_pos hp]; exact hp
      · rw [if_neg hp]
        have hdir := dirOf_head hb5
        have hdir_ne : dirOf b.path.data ≠ [] := by
          intro hnil
          rw [hnil] at hdir
          simp at hdir
        rw [head?_append_of_ne_nil _ hdir_ne]
        exact hdir
    · show ∀ c ∈ (if pq.1.head? = some '/' then pq.1 else dirOf b.path.data ++ pq.1),
        c ≠ '?' ∧ c ≠ '#'
      have hinpq : ∀ c ∈ pq.1, c ≠ '?' ∧ c ≠ '#' := by
        intro c hc
        constructor
        · intro he; exact hpq1_noq (he ▸ hc)
        · intro he; exact hbf1_nohash (he ▸ hpq1_sub c hc)
      by_cases hp : pq.1.head? = some '/'
      · rw [if_pos hp]; exact hinpq
      · rw [if_neg hp]
        intro c hc
        rcases List.mem_append.mp hc with h1 | h2
        · exact hb6 c (dirOf_mem h1)
        · exact hinpq c h2
    · show ∀ q, pq.2.map String.mk = some q → '#' ∉ q.data
      intro q hqe
      rcases hq2 : pq.2 with _ | qc
      · rw [hq2] at hqe; simp at hqe
      · rw [hq2] at hqe
        have : String.mk qc = q := by simpa using hqe
        rw [← this]
        exact hq_nohash qc hq2
    · show parseQuery (pq.2.getD []) = parseQuery (((pq.2.map String.mk).map String.data).getD [])
      congr 1
      rcases pq.2 <;> rfl
    · show ∀ p ∈ parseQuery (pq.2.getD []), entryWF p
      apply parseQuery_entryWF
      rcases hq2 : pq.2 with _ | qc
      · simp
      · simpa using hq_nohash qc hq2

theorem parseURL_WF {s base : String} {u : JSURL}
    (h : parseURL s base = some u) : urlWF u := by
  unfold parseURL at h
  rcases hla : looksAbsoluteSplit s.data with _ | st
  · rw [hla] at h
    rcases hpb : parseAbsChars base.data with _ | b
    · rw [hpb] at h; simp at h
    · rw [hpb] at h
      have : resolveRel b s.data = u := by simpa using h
      rw [← this]
      exact resolveRel_WF (parseAbsChars_WF hpb) s.data
  · rw [hla] at h
    exact parseAbsChars_WF h

theorem urlDeleteParam_WF {u : JSURL} (hu : urlWF u) (k : String) :
    urlWF (urlDeleteParam k u) := by
  obtain ⟨hb1, hb2, hb3, hb4, hb5, hb6, hb7, hb8, hb9⟩ := hu
  unfold urlDeleteParam
  simp only []
  set ps := u.params.filter (fun p => decide (p.1 ≠ k)) with hps
  have hsub : ∀ p ∈ ps, p ∈ u.params := by
    intro p hp
    exact (List.mem_filter.mp (hps ▸ hp)).1
  have hwf : ∀ p ∈ ps, entryWF p := fun p hp => hb9 p (hsub p hp)
  refine ⟨hb1, hb2, hb3, hb4, hb5, hb6, ?_, ?_, ?_⟩
  · show ∀ q, (if ps = [] then none else some (String.mk (serializeQuery ps))) = some q →
      '#' ∉ q.data
    intro q hq
    by_cases hnil : ps = []
    · rw [if_pos hnil] at hq; simp at hq
    · rw [if_neg hnil] at hq
      have : String.mk (serializeQuery ps) = q := by simpa using hq
      rw [← this]
      exact serializeQuery_no_hash hwf
  · show ps = parseQuery
      ((((if ps = [] then none else some (String.mk (serializeQuery ps))).map String.data)).getD [])
    by_cases hnil : ps = []
    · rw [if_pos hnil, hnil]; rfl
    · rw [if_neg hnil]
      show ps = parseQuery (serializeQuery ps)
      exact (parseQuery_round hnil hwf).symm
  · exact hwf

theorem parseAbsChars_build (sch hst pth : List Char) (qo fo : Option (List Char))
    (hs1 : sch ≠ []) (hs2 : ∀ c ∈ sch, c.isAlpha = true)
    (hh1 : hst ≠ []) (hh2 : ∀ c ∈ hst, c ≠ '/' ∧ c ≠ '?' ∧ c ≠ '#')
    (hp1 : pth.head? = some '/') (hp2 : ∀ c ∈ pth, c ≠ '?' ∧ c ≠ '#')
    (hq : ∀ q, qo = some q → '#' ∉ q) :
    parseAbsChars (sch ++ ':' :: '/' :: '/' ::
        (hst ++ (pth ++ optQueryPart qo ++ optFragPart fo))) =
      some { scheme := String.mk sch, host := String.mk hst, path := String.mk pth,
             params := parseQuery (qo.getD []), query := qo.map String.mk,
             fragment := fo.map String.mk } := by
  have hpth_ne : pth ≠ [] := by
    intro hnil
    rw [hnil] at hp1
    simp at hp1
  have hnoq_pth : '?' ∉ pth := fun hm => (hp2 _ hm).1 rfl
  have hnohash_pq : '#' ∉ pth ++ optQueryPart qo := by
    intro hm
    rcases List.mem_append.mp hm with h1 | h2
    · exact (hp2 _ h1).2 rfl
    · rcases hqo : qo with _ | q
      · rw [hqo] at h2; simp at h2
      · rw [hqo] at h2
        exact hq q hqo (by simpa using h2)
  have hq_eq : splitFirst '?' (pth ++ optQueryPart qo) = (pth, qo) := by
    rcases qo with _ | q
    · simp only [optQueryPart_none, List.append_nil]
      exact splitFirst_of_not_mem hnoq_pth
    · simp only [optQueryPart_some]
      exact splitFirst_append _ hnoq_pth
  have hf_eq : splitFirst '#' (pth ++ optQueryPart qo ++ optFragPart fo) =
      (pth ++ optQueryPart qo, fo) := by
    rcases fo with _ | f
    · simp only [optFragPart_none, List.append_nil]
      exact splitFirst_of_not_mem hnohash_pq
    · simp only [optFragPart_some]
      exact splitFirst_append _ hnohash_pq
  have hhead : (pth ++ optQueryPart qo ++ optFragPart fo).head? = some '/' := by
    rw [head?_append_of_ne_nil _ (by simp [hpth_ne]), head?_append_of_ne_nil _ hpth_ne]
    exact hp1
  have htake : takeUntilAny ['/', '?', '#']
      (hst ++ (pth ++ optQueryPart qo ++ optFragPart fo)) =
      (hst, pth ++ optQueryPart qo ++ optFragPart fo) := by
    apply takeUntilAny_append
    · intro x hx
      have := hh2 x hx
      simp [this.1, this.2.1, this.2.2]
    · intro y hy
      rw [hhead] at hy
      have hy2 : '/' = y := by simpa using hy
      simp [← hy2]
  unfold parseAbsChars
  rw [looksAbsoluteSplit_build _ hs1 hs2]
  simp only [htake, hf_eq, hq_eq, if_neg hh1, if_neg hpth_ne]

theorem urlToString_parse {u : JSURL} (h : urlWF u) (base : String) :
    parseURL (urlToString u) base = some u := by
  obtain ⟨sch, hst, pth, prm, qry, frg⟩ := u
  obtain ⟨h1, h2, h3, h4, h5, h6, h7, h8, h9⟩ := h
  have hqo : ∀ q, qry.map String.data = some q → '#' ∉ q := by
    intro q hq
    rcases hq2 : qry with _ | qs
    · rw [hq2] at hq; simp at hq
    · rw [hq2] at hq
      have : qs.data = q := by simpa using hq
      rw [← this]
      exact h7 qs hq2
  have hbody : (urlToString ⟨sch, hst, pth, prm, qry, frg⟩).data =
      sch.data ++ ':' :: '/' :: '/' ::
        (hst.data ++ (pth.data ++ optQueryPart (qry.map String.data)
          ++ optFragPart (frg.map String.data))) := by
    show sch.data ++ ':' :: '/' :: '/' ::
        (hst.data ++ pth.data
          ++ optQueryPart (qry.map String.data)
          ++ optFragPart (frg.map String.data)) = _
    simp [List.append_assoc]
  have hbuild := parseAbsChars_build sch.data hst.data pth.data
    (qry.map String.data) (frg.map String.data) h1 h2 h3 h4 h5 h6 hqo
  have hrec : ({ scheme := String.mk sch.data
                 host := String.mk hst.data
                 path := String.mk pth.data
                 params := parseQuery ((qry.map String.data).getD [])
                 query := (qry.map String.data).map String.mk
                 fragment := (frg.map String.data).map String.mk } : JSURL) =
      ⟨sch, hst, pth, prm, qry, frg⟩ := by
    rw [string_mk_data, string_mk_data, string_mk_data, option_mk_data, option_mk_data]
    rw [← h8]
  unfold parseURL
  rw [hbody, looksAbsoluteSplit_build _ h1 h2]
  rw [hbuild, hrec]

/-! ## Rules and rule compilation (`URLCleaner.loadConfig`) -/

/-- A raw configuration entry `{ pattern, replacement }` as stored in
`chrome.storage.sync`; `replacement` may be absent. -/
structure RawRule where
  pattern : String
  replacement : Option String

/-- A compiled rule as built by `loadConfig`:
`{ pattern: new RegExp(rule.pattern, "i"), replacement: rule.replacement || "",
originalPattern: rule.pattern }`.  The compiled matcher is its `test`
function. -/
structure Rule where
  pattern : String → Bool
  replacement : String
  originalPattern : String

/-- Lowercase a character list (ASCII, as `Char.toLower`). -/
def lowerChars (l : List Char) : List Char := l.map Char.toLower

/-- Contiguous-sublist test. -/
def hasInfix (needle : List Char) : List Char → Bool
  | [] => needle.isEmpty
  | c :: rest => needle.isPrefixOf (c :: rest) || hasInfix needle rest

/-- Case-insensitive substring test: the semantics of
`new RegExp(lit, "i").test(s)` for a literal pattern `lit`. -/
def icontains (needle s : String) : Bool :=
  hasInfix (lowerChars needle.data) (lowerChars s.data)

/-- Characters allowed in the literal patterns this model compiles. -/
def plainChars (l : List Char) : Bool :=
  l.all (fun ch => ch.isAlphanum || ch = '_')

/-- Model of JavaScript `new RegExp(p, "i")` combined with `.test`, for
the restricted pattern language exercised by this development: a plain
alphanumeric/underscore literal is an unanchored case-insensitive
substring test; a plain literal followed by `.*` likewise tests for the
literal (the `.*` matches any remainder, including the empty one); an
unmatched `(` — or any other shape — fails to compile, as `new
RegExp("(")` throws `SyntaxError`.  Patterns outside this language are
not used by any concrete input below. -/
def jsCompile (p : String) : Option (String → Bool) :=
  if plainChars p.data then some (fun s => icontains p s)
  else
    match p.data.reverse with
    | '*' :: '.' :: restRev =>
      if plainChars restRev.reverse
      then some (fun s => icontains (String.mk restRev.reverse) s)
      else none
    | _ => none

/-- One step of the `rules.map(...)` in `loadConfig`: compile the
pattern (with the host regex engine `compile`), default the replacement
to the empty string (`rule.replacement || ""`), keep the original
pattern. -/
def compileRule (compile : String → Option (String → Bool)) (r : RawRule) : Option Rule :=
  (compile r.pattern).map (fun m =>
    { pattern := m, replacement := r.replacement.getD "", originalPattern := r.pattern })

/-- The whole `rules.map(...)` inside the `try`: the first entry whose
pattern fails to compile aborts the entire mapping (the exception
escapes the `map`), otherwise every entry is compiled in order. -/
def compileAll (compile : String → Option (String → Bool)) :
    List RawRule → Option (List Rule)
  | [] => some []
  | r :: rs =>
    match compileRule compile r, compileAll compile rs with
    | some cr, some crs => some (cr :: crs)
    | _, _ => none

/-- The six raw default rules `loadConfig` substitutes when the stored
rule list is empty or absent. -/
def defaultBasicRaw : List RawRule :=
  [⟨"utm_.*", some ""⟩, ⟨"fbclid", some ""⟩, ⟨"gclid", some ""⟩,
   ⟨"ref", some ""⟩, ⟨"forcedownload", some ""⟩, ⟨"download", some ""⟩]

/-- The five pre-compiled fallback rules installed by the `catch` branch
of `loadConfig` when mapping the rule list throws. -/
def fallbackRules : List Rule :=
  [⟨fun s => icontains "utm_" s, "", "utm_.*"⟩,
   ⟨fun s => icontains "fbclid" s, "", "fbclid"⟩,
   ⟨fun s => icontains "gclid" s, "", "gclid"⟩,
   ⟨fun s => icontains "forcedownload" s, "", "forcedownload"⟩,
   ⟨fun s => icontains "download" s, "", "download"⟩]

/-- Model of `URLCleaner.loadConfig`: substitute the six built-in
defaults when the stored list is empty, then compile every entry; if
any entry's pattern fails to compile the whole list is replaced by the
pre-compiled fallback rules (the `catch` branch). -/
def loadConfig (compile : String → Option (String → Bool))
    (stored : List RawRule) : List Rule :=
  let rules := if stored.isEmpty then defaultBasicRaw else stored
  match compileAll compile rules with
  | some rs => rs
  | none => fallbackRules

/-! ## The rewrite core (`URLCleaner.cleanUrlString`) -/

/-- The first rule whose matcher accepts the parameter's key or value
(`rule.pattern.test(key) || rule.pattern.test(value)`). -/
def firstMatch (rules : List Rule) (key value : String) : Option Rule :=
  rules.find? (fun r => r.pattern key || r.pattern value)

/-- No rule matches the parameter's key or value. -/
def noRuleMatches (rules : List Rule) (key value : String) : Bool :=
  rules.all (fun r => !(r.pattern key || r.pattern value))

/-- The replacement of the winning rule, if any. -/
def winnerRepl (rules : List Rule) (key value : String) : Option String :=
  (firstMatch rules key value).map Rule.replacement

/-- The winning rule's action on the URL: an empty replacement deletes
the parameter, a nonempty one sets its value to the replacement. -/
def applyRule (r : Rule) (key : String) (u : JSURL) : JSURL :=
  if r.replacement = "" then urlDeleteParam key u else urlSetParam key r.replacement u

/-- The inner `for (const rule of this.configRules)` loop for one
snapshot parameter: try the rules in order, apply the first match and
stop (`break`), report whether anything matched. -/
def processParam (rules : List Rule) (kv : String × String) (u : JSURL) : JSURL × Bool :=
  match rules with
  | [] => (u, false)
  | r :: rest =>
    if r.pattern kv.1 || r.pattern kv.2 then (applyRule r kv.1 u, true)
    else processParam rest kv u

/-- One step of the outer loop: process a snapshot parameter and
accumulate `hasChanges`. -/
def stepParam (rules : List Rule) (acc : JSURL × Bool) (kv : String × String) : JSURL × Bool :=
  let r := processParam rules kv acc.1
  (r.1, acc.2 || r.2)

/-- The outer `for (const [key, value] of paramsToProcess)` loop over a
snapshot of the parameters. -/
def foldParams (rules : List Rule) (snap : List (String × String))
    (acc : JSURL × Bool) : JSURL × Bool :=
  snap.foldl (stepParam rules) acc

/-- The rule-application logic of `cleanUrlString` on a parsed URL:
snapshot the parameters (`Array.from(url.searchParams.entries())`) and
process each in order. -/
def rewriteURL (rules : List Rule) (url : JSURL) : JSURL × Bool :=
  foldParams rules url.params (url, false)

/-- The rewrite core of `cleanUrlString`, independent of the dedup
cache: parse (returning the input unchanged on failure, as the `catch`
does), apply the rules, serialize.  Returns the result string and the
`hasChanges` flag. -/
def cleanCore (rules : List Rule) (base urlStr : String) : String × Bool :=
  match parseURL urlStr base with
  | none => (urlStr, false)
  | some url =>
    let r := rewriteURL rules url
    (urlToString r.1, r.2)

@[simp] theorem urlDeleteParam_params (k : String) (u : JSURL) :
    (urlDeleteParam k u).params = u.params.filter (fun p => decide (p.1 ≠ k)) := rfl

@[simp] theorem urlSetParam_params (k v : String) (u : JSURL) :
    (urlSetParam k v u).params = setParam k v u.params := rfl

@[simp] theorem urlDeleteParam_scheme (k : String) (u : JSURL) :
    (urlDeleteParam k u).scheme = u.scheme := rfl
@[simp] theorem urlDeleteParam_host (k : String) (u : JSURL) :
    (urlDeleteParam k u).host = u.host := rfl
@[simp] theorem urlDeleteParam_path (k : String) (u : JSURL) :
    (urlDeleteParam k u).path = u.path := rfl
@[simp] theorem urlDeleteParam_fragment (k : String) (u : JSURL) :
    (urlDeleteParam k u).fragment = u.fragment := rfl

@[simp] theorem lookupKey_nil (k : String) : lookupKey k [] = [] := rfl

theorem lookupKey_cons (k : String) (p : String × String) (l : List (String × String)) :
    lookupKey k (p :: l) = if p.1 = k then p :: lookupKey k l else lookupKey k l := by
  unfold lookupKey
  by_cases h : p.1 = k
  · simp [List.filter_cons, h]
  · simp [List.filter_cons, h]

theorem lookupKey_filter_ne {k k' : String} (h : k' ≠ k) (l : List (String × String)) :
    lookupKey k' (l.filter (fun q => decide (q.1 ≠ k))) = lookupKey k' l := by
  induction l with
  | nil => rfl
  | cons p rest ih =>
    rw [List.filter_cons]
    by_cases hp : p.1 = k
    · have hne : ¬ p.1 = k' := fun he => h (he.symm.trans hp)
      rw [show (decide (p.1 ≠ k) : Bool) = false from by simpa using hp]
      simp only [Bool.false_eq_true, if_false]
      rw [ih, lookupKey_cons, if_neg hne]
    · rw [show (decide (p.1 ≠ k) : Bool) = true from by simpa using hp]
      simp only [if_true]
      rw [lookupKey_cons, lookupKey_cons]
      by_cases hp2 : p.1 = k'
      · rw [if_pos hp2, if_pos hp2, ih]
      · rw [if_neg hp2, if_neg hp2, ih]

theorem lookupKey_delete_self (k : String) (l : List (String × String)) :
    lookupKey k (l.filter (fun q => decide (q.1 ≠ k))) = [] := by
  induction l with
  | nil => rfl
  | cons p rest ih =>
    rw [List.filter_cons]
    by_cases hp : p.1 = k
    · simp only [hp]
      simpa using ih
    · have hd : (decide (p.1 ≠ k)) = true := by simpa using hp
      rw [hd]
      simp only [if_true]
      rw [lookupKey_cons, if_neg hp]
      exact ih

theorem lookupKey_setParam_self (k v : String) (l : List (String × String)) :
    lookupKey k (setParam k v l) = [(k, v)] := by
  induction l with
  | nil =>
    show lookupKey k [(k, v)] = [(k, v)]
    rw [lookupKey_cons, if_pos rfl, lookupKey_nil]
  | cons p rest ih =>
    unfold setParam
    by_cases hp : p.1 = k
    · rw [if_pos hp, lookupKey_cons, if_pos rfl, lookupKey_delete_self]
    · rw [if_neg hp, lookupKey_cons, if_neg hp]
      exact ih

theorem lookupKey_setParam_other {k k' : String} (h : k' ≠ k) (v : String)
    (l : List (String × String)) :
    lookupKey k' (setParam k v l) = lookupKey k' l := by
  induction l with
  | nil =>
    show lookupKey k' [(k, v)] = []
    rw [lookupKey_cons, if_neg (fun he => h he.symm), lookupKey_nil]
  | cons p rest ih =>
    unfold setParam
    by_cases hp : p.1 = k
    · rw [if_pos hp, lookupKey_cons, if_neg (fun he => h he.symm),
        lookupKey_filter_ne h, lookupKey_cons]
      by_cases hp2 : p.1 = k'
      · exact absurd (hp2.symm.trans hp) h
      · rw [if_neg hp2]
    · rw [if_neg hp, lookupKey_cons, lookupKey_cons]
      by_cases hp2 : p.1 = k'
      · rw [if_pos hp2, if_pos hp2, ih]
      · rw [if_neg hp2, if_neg hp2, ih]

theorem mem_setParam_of_ne {p : String × String} {k : String} {l : List (String × String)}
    (hm : p ∈ l) (hne : p.1 ≠ k) (v : String) : p ∈ setParam k v l := by
  induction l with
  | nil => simp at hm
  | cons q rest ih =>
    unfold setParam
    by_cases hq : q.1 = k
    · rw [if_pos hq]
      rcases List.mem_cons.mp hm with he | hm2
      · exact absurd (he ▸ hq) hne
      · exact List.mem_cons_of_mem _ (List.mem_filter.mpr ⟨hm2, by simpa using hne⟩)
    · rw [if_neg hq]
      rcases List.mem_cons.mp hm with he | hm2
      · exact he ▸ List.mem_cons_self _ _
      · exact List.mem_cons_of_mem _ (ih hm2)

theorem mem_filter_ne {p : String × String} {k : String} {l : List (String × String)}
    (hm : p ∈ l) (hne : p.1 ≠ k) : p ∈ l.filter (fun q => decide (q.1 ≠ k)) :=
  List.mem_filter.mpr ⟨hm, by simpa using hne⟩

theorem firstMatch_cons (r : Rule) (rules : List Rule) (k v : String) :
    firstMatch (r :: rules) k v =
      if r.pattern k || r.pattern v then some r else firstMatch rules k v := by
  unfold firstMatch
  by_cases h : r.pattern k || r.pattern v
  · rw [if_pos h]
    exact List.find?_cons_of_pos _ h
  · rw [if_neg h]
    exact List.find?_cons_of_neg _ (by simpa using h)

theorem processParam_eq (rules : List Rule) (kv : String × String) (u : JSURL) :
    processParam rules kv u =
      match firstMatch rules kv.1 kv.2 with
      | none => (u, false)
      | some r => (applyRule r kv.1 u, true) := by
  induction rules with
  | nil => rfl
  | cons r rest ih =>
    unfold processParam
    rw [firstMatch_cons]
    by_cases h : r.pattern kv.1 || r.pattern kv.2
    · rw [if_pos h, if_pos h]
    · rw [if_neg h, if_neg h]
      exact ih

theorem noRuleMatches_iff (rules : List Rule) (k v : String) :
    noRuleMatches rules k v = true ↔ firstMatch rules k v = none := by
  rw [noRuleMatches, firstMatch, List.find?_eq_none, List.all_eq_true]
  constructor
  · intro h r hr
    have := h r hr
    simpa using this
  · intro h r hr
    have := h r hr
    simpa using this

theorem processParam_no_match {rules : List Rule} {kv : String × String}
    (h : noRuleMatches rules kv.1 kv.2 = true) (u : JSURL) :
    processParam rules kv u = (u, false) := by
  rw [processParam_eq, (noRuleMatches_iff rules kv.1 kv.2).mp h]

@[simp] theorem foldParams_nil (rules : List Rule) (acc : JSURL × Bool) :
    foldParams rules [] acc = acc := rfl

theorem foldParams_cons (rules : List Rule) (kv : String × String)
    (snap : List (String × String)) (acc : JSURL × Bool) :
    foldParams rules (kv :: snap) acc = foldParams rules snap (stepParam rules acc kv) := rfl

theorem foldParams_append (rules : List Rule) (s t : List (String × String))
    (acc : JSURL × Bool) :
    foldParams rules (s ++ t) acc = foldParams rules t (foldParams rules s acc) :=
  List.foldl_append ..

theorem processParam_mem_preserved {rules : List Rule} {p kv : String × String} {u : JSURL}
    (hm : kv ∈ u.params)
    (h : p.1 = kv.1 → noRuleMatches rules p.1 p.2 = true) :
    kv ∈ (processParam rules p u).1.params := by
  rw [processParam_eq]
  rcases hfm : firstMatch rules p.1 p.2 with _ | r
  · simpa using hm
  · have hpk : p.1 ≠ kv.1 := by
      intro he
      rw [(noRuleMatches_iff rules p.1 p.2).mp (h he)] at hfm
      simp at hfm
    have hkv : kv.1 ≠ p.1 := fun he => hpk he.symm
    simp only []
    unfold applyRule
    by_cases hrep : r.replacement = ""
    · rw [if_pos hrep]
      simpa using mem_filter_ne hm hkv
    · rw [if_neg hrep]
      simpa using mem_setParam_of_ne hm hkv r.replacement

theorem foldParams_mem_preserved {rules : List Rule} {kv : String × String} :
    ∀ {snap : List (String × String)} {acc : JSURL × Bool},
    kv ∈ acc.1.params →
    (∀ p ∈ snap, p.1 = kv.1 → noRuleMatches rules p.1 p.2 = true) →
    kv ∈ (foldParams rules snap acc).1.params := by
  intro snap
  induction snap with
  | nil =>
    intro acc hm _
    simpa using hm
  | cons q rest ih =>
    intro acc hm h
    rw [foldParams_cons]
    apply ih
    · exact processParam_mem_preserved hm (h q (List.mem_cons_self _ _))
    · intro p hp
      exact h p (List.mem_cons_of_mem _ hp)

theorem processParam_lookup_frame {rules : List Rule} {p : String × String} {k : String}
    (hne : p.1 ≠ k) (u : JSURL) :
    lookupKey k (processParam rules p u).1.params = lookupKey k u.params := by
  rw [processParam_eq]
  rcases hfm : firstMatch rules p.1 p.2 with _ | r
  · rfl
  · simp only []
    unfold applyRule
    have hk : k ≠ p.1 := fun he => hne he.symm
    by_cases hrep : r.replacement = ""
    · rw [if_pos hrep]
      simpa using lookupKey_filter_ne hk u.params
    · rw [if_neg hrep]
      simpa using lookupKey_setParam_other hk r.replacement u.params

theorem foldParams_lookup_frame {rules : List Rule} {k : String} :
    ∀ {snap : List (String × String)} {acc : JSURL × Bool},
    (∀ p ∈ snap, p.1 ≠ k) →
    lookupKey k (foldParams rules snap acc).1.params = lookupKey k acc.1.params := by
  intro snap
  induction snap with
  | nil =>
    intro acc _
    rfl
  | cons q rest ih =>
    intro acc h
    rw [foldParams_cons, ih (fun p hp => h p (List.mem_cons_of_mem _ hp))]
    exact processParam_lookup_frame (h q (List.mem_cons_self _ _)) acc.1

/-- A rule set all of whose replacements are empty (pure-deletion
rules, like the built-in defaults). -/
def allDeletions (rules : List Rule) : Prop :=
  ∀ r ∈ rules, r.replacement = ""

instance (rules : List Rule) : Decidable (allDeletions rules) := by
  unfold allDeletions
  infer_instance

theorem processParam_sublist_AE {rules : List Rule} (hAE : allDeletions rules)
    (p : String × String) (u : JSURL) :
    (processParam rules p u).1.params.Sublist u.params := by
  rw [processParam_eq]
  rcases hfm : firstMatch rules p.1 p.2 with _ | r
  · simp
  · have hr : r ∈ rules := List.mem_of_find?_eq_some hfm
    have hrep := hAE r hr
    simp only []
    unfold applyRule
    rw [if_pos hrep]
    exact List.filter_sublist u.params

theorem foldParams_sublist_AE {rules : List Rule} (hAE : allDeletions rules) :
    ∀ (snap : List (String × String)) (acc : JSURL × Bool),
    (foldParams rules snap acc).1.params.Sublist acc.1.params := by
  intro snap
  induction snap with
  | nil =>
    intro acc
    simp
  | cons q rest ih =>
    intro acc
    rw [foldParams_cons]
    exact (ih (stepParam rules acc q)).trans (processParam_sublist_AE hAE q acc.1)

theorem processParam_WF_AE {rules : List Rule} (hAE : allDeletions rules)
    {u : JSURL} (hWF : urlWF u) (p : String × String) :
    urlWF (processParam rules p u).1 := by
  rw [processParam_eq]
  rcases hfm : firstMatch rules p.1 p.2 with _ | r
  · simpa using hWF
  · have hr : r ∈ rules := List.mem_of_find?_eq_some hfm
    have hrep := hAE r hr
    simp only []
    unfold applyRule
    rw [if_pos hrep]
    exact urlDeleteParam_WF hWF p.1

theorem foldParams_WF_AE {rules : List Rule} (hAE : allDeletions rules) :
    ∀ (snap : List (String × String)) {acc : JSURL × Bool},
    urlWF acc.1 → urlWF (foldParams rules snap acc).1 := by
  intro snap
  induction snap with
  | nil =>
    intro acc h
    simpa using h
  | cons q rest ih =>
    intro acc h
    rw [foldParams_cons]
    exact ih (processParam_WF_AE hAE h q)

theorem foldParams_keyGone {rules : List Rule} (hAE : allDeletions rules)
    {kv : String × String} {r : Rule} (hfm : firstMatch rules kv.1 kv.2 = some r) :
    ∀ {snap : List (String × String)} {acc : JSURL × Bool}, kv ∈ snap →
    ∀ p ∈ (foldParams rules snap acc).1.params, p.1 ≠ kv.1 := by
  intro snap
  induction snap with
  | nil =>
    intro acc hm
    simp at hm
  | cons q rest ih =>
    intro acc hm p hp
    rw [foldParams_cons] at hp
    rcases List.mem_cons.mp hm with he | hm2
    · subst he
      have hstep : (stepParam rules acc kv).1.params =
          acc.1.params.filter (fun p => decide (p.1 ≠ kv.1)) := by
        show (processParam rules kv acc.1).1.params = _
        rw [processParam_eq, hfm]
        have hrep := hAE r (List.mem_of_find?_eq_some hfm)
        simp only []
        unfold applyRule
        rw [if_pos hrep]
        rfl
      have hsub := foldParams_sublist_AE hAE rest (stepParam rules acc kv)
      have hmem := hsub.subset hp
      rw [hstep] at hmem
      have := List.mem_filter.mp hmem
      simpa using this.2
    · exact ih hm2 p hp

theorem foldParams_flag_false {rules : List Rule} :
    ∀ {snap : List (String × String)} {c : JSURL} {b : Bool},
    (foldParams rules snap (c, b)).2 = false →
    b = false ∧ (foldParams rules snap (c, b)).1 = c := by
  intro snap
  induction snap with
  | nil =>
    intro c b h
    exact ⟨h, rfl⟩
  | cons q rest ih =>
    intro c b h
    rw [foldParams_cons] at h ⊢
    have hstep : stepParam rules (c, b) q =
        ((processParam rules q c).1, b || (processParam rules q c).2) := rfl
    rw [hstep] at h ⊢
    rcases ih h with ⟨h1, h2⟩
    have hb : b = false := by
      rcases b <;> simp at h1 ⊢
    subst hb
    have hflag : (processParam rules q c).2 = false := by simpa using h1
    have hc : (processParam rules q c).1 = c := by
      rw [processParam_eq] at hflag ⊢
      rcases hfm : firstMatch rules q.1 q.2 with _ | r
      · rfl
      · rw [hfm] at hflag
        exact Bool.noConfusion hflag
    rw [hc] at h2 ⊢
    exact ⟨rfl, h2⟩

theorem foldParams_no_match {rules : List Rule} :
    ∀ {snap : List (String × String)},
    (∀ p ∈ snap, noRuleMatches rules p.1 p.2 = true) →
    ∀ (acc : JSURL × Bool), foldParams rules snap acc = acc := by
  intro snap
  induction snap with
  | nil =>
    intro _ acc
    rfl
  | cons q rest ih =>
    intro h acc
    rw [foldParams_cons]
    have hq := processParam_no_match (h q (List.mem_cons_self _ _)) acc.1
    have hstep : stepParam rules acc q = acc := by
      unfold stepParam
      rw [hq]
      simp
    rw [hstep]
    exact ih (fun p hp => h p (List.mem_cons_of_mem _ hp)) acc

/-! ## The stateful layer: dedup cache, counter, and the DOM
synchronizer entry points -/

/-- The mutable state of a `URLCleaner` instance that the embedded
operations touch: the compiled rules, the dedup cache (`processedUrls`,
a set of strings modelled as a duplicate-free-by-construction list) and
the cleaned-links counter. -/
structure CState where
  configRules : List Rule
  processedUrls : List String
  cleanedLinksCount : Nat

/-- `Set.add`: append if absent (only membership is observable). -/
def addUrl (x : String) (l : List String) : List String :=
  if x ∈ l then l else l ++ [x]

theorem mem_addUrl_self (x : String) (l : List String) : x ∈ addUrl x l := by
  unfold addUrl
  by_cases h : x ∈ l
  · rw [if_pos h]; exact h
  · rw [if_neg h]; simp

theorem mem_addUrl_of_mem {x : String} {l : List String} (y : String)
    (h : x ∈ l) : x ∈ addUrl y l := by
  unfold addUrl
  by_cases hy : y ∈ l
  · rw [if_pos hy]; exact h
  · rw [if_neg hy]; exact List.mem_append_left _ h

/-- Model of `URLCleaner.cleanUrlString`, instrumented: returns the
result string, the internal `hasChanges` flag, the updated state, and
whether the rule-matching logic ran (false when the guard
`!urlStr || processedUrls.has(urlStr)` short-circuited or parsing
threw).  On a change, both the original and the cleaned string are
added to the cache, in that order. -/
def cleanUrlStringF (base : String) (s : CState) (urlStr : String) :
    String × Bool × CState × Bool :=
  if urlStr = "" ∨ urlStr ∈ s.processedUrls then (urlStr, false, s, false)
  else
    match parseURL urlStr base with
    | none => (urlStr, false, s, false)
    | some url =>
      let r := rewriteURL s.configRules url
      let cleaned := urlToString r.1
      if r.2 then
        (cleaned, true,
          { s with processedUrls := addUrl cleaned (addUrl urlStr s.processedUrls) }, true)
      else (cleaned, false, s, true)

/-- The result string of `cleanUrlString`. -/
def cuResult (base : String) (s : CState) (urlStr : String) : String :=
  (cleanUrlStringF base s urlStr).1

/-- The internal `hasChanges` flag of a `cleanUrlString` call. -/
def cuChanged (base : String) (s : CState) (urlStr : String) : Bool :=
  (cleanUrlStringF base s urlStr).2.1

/-- The state after a `cleanUrlString` call. -/
def cuState (base : String) (s : CState) (urlStr : String) : CState :=
  (cleanUrlStringF base s urlStr).2.2.1

/-- Whether a `cleanUrlString` call ran the rule-matching logic. -/
def cuMatched (base : String) (s : CState) (urlStr : String) : Bool :=
  (cleanUrlStringF base s urlStr).2.2.2

/-- Model of `URLCleaner.cleanSingleLink` on one anchor's href: skip
empty hrefs, rewrite, and when the result differs write it back and
bump the counter.  Returns the anchor's new href and the new state. -/
def cleanSingleLink (base : String) (s : CState) (href : String) : String × CState :=
  if href = "" then (href, s)
  else
    let r := cleanUrlStringF base s href
    if r.1 = href then (href, r.2.2.1)
    else (r.1, { r.2.2.1 with cleanedLinksCount := r.2.2.1.cleanedLinksCount + 1 })

/-- One anchor of the `cleanAllLinks` sweep: thread the processed
anchors, the state, and the local `cleanedCount`. -/
def cleanAllStep (base : String) (acc : List String × CState × Nat) (href : String) :
    List String × CState × Nat :=
  if href = "" then (acc.1 ++ [href], acc.2.1, acc.2.2)
  else
    let r := cleanUrlStringF base acc.2.1 href
    if r.1 = href then (acc.1 ++ [href], r.2.2.1, acc.2.2)
    else (acc.1 ++ [r.1], r.2.2.1, acc.2.2 + 1)

/-- Model of `URLCleaner.cleanAllLinks`: sweep every anchor href in
order, then add the local count to `cleanedLinksCount`.  Returns the
rewritten hrefs and the new state. -/
def cleanAllLinks (base : String) (s : CState) (anchors : List String) :
    List String × CState :=
  let r := anchors.foldl (cleanAllStep base) ([], s, 0)
  (r.1, { r.2.1 with cleanedLinksCount := r.2.1.cleanedLinksCount + r.2.2 })

/-- The state of a freshly initialized cleaner holding the given rules:
empty dedup cache, zero counter. -/
def initFreshState (rules : List Rule) : CState :=
  { configRules := rules, processedUrls := [], cleanedLinksCount := 0 }

/-- Model of `URLCleaner.reloadConfig`: reload the rules from the
stored configuration, clear the dedup cache, zero the counter, re-run
the `cleanAllLinks` sweep. -/
def reloadConfig (compile : String → Option (String → Bool)) (stored : List RawRule)
    (base : String) (anchors : List String) (s : CState) : List String × CState :=
  let s1 : CState := { s with configRules := loadConfig compile stored }
  let s2 : CState := { s1 with processedUrls := [], cleanedLinksCount := 0 }
  cleanAllLinks base s2 anchors

theorem cuState_configRules (base : String) (s : CState) (urlStr : String) :
    (cleanUrlStringF base s urlStr).2.2.1.configRules = s.configRules := by
  unfold cleanUrlStringF
  by_cases hg : urlStr = "" ∨ urlStr ∈ s.processedUrls
  · rw [if_pos hg]
  · rw [if_neg hg]
    rcases parseURL urlStr base with _ | url
    · rfl
    · simp only []
      by_cases hch : (rewriteURL s.configRules url).2
      · rw [if_pos hch]
      · rw [if_neg hch]

theorem cleanAllLinks_configRules (base : String) (anchors : List String) :
    ∀ (acc : List String × CState × Nat),
    ((anchors.foldl (cleanAllStep base) acc)).2.1.configRules = acc.2.1.configRules := by
  induction anchors with
  | nil =>
    intro acc
    rfl
  | cons a rest ih =>
    intro acc
    rw [List.foldl_cons, ih]
    unfold cleanAllStep
    by_cases ha : a = ""
    · rw [if_pos ha]
    · rw [if_neg ha]
      simp only []
      by_cases hr : (cleanUrlStringF base acc.2.1 a).1 = a
      · rw [if_pos hr]
        exact cuState_configRules base acc.2.1 a
      · rw [if_neg hr]
        exact cuState_configRules base acc.2.1 a

/-! ## Concrete material for witnesses and counterexamples -/

/-- The page base used by concrete scenarios (`location.href`). -/
def demoBase : String := "https://example.com/"

/-- Two rules whose interaction breaks idempotence: the second rewrites
value `v` to `y`, which the first then deletes on a second pass. -/
def rulesYV : List Rule :=
  [⟨fun s => icontains "y" s, "", "y"⟩, ⟨fun s => icontains "v" s, "y", "v"⟩]

/-- One pure-deletion rule used to witness idempotence. -/
def rulesFbclid : List Rule := [⟨fun s => icontains "fbclid" s, "", "fbclid"⟩]

/-- One deletion rule matching only the value `v1`. -/
def rulesV1 : List Rule := [⟨fun s => icontains "v1" s, "", "v1"⟩]

/-- A deletion rule on `v1` followed by a replacement rule on `v2`. -/
def rulesV1V2 : List Rule :=
  [⟨fun s => icontains "v1" s, "", "v1"⟩, ⟨fun s => icontains "v2" s, "x", "v2"⟩]

/-- A deletion rule keyed on `a` and a replacement rule keyed on `b`. -/
def rulesAB : List Rule :=
  [⟨fun s => icontains "a" s, "", "a"⟩, ⟨fun s => icontains "b" s, "x", "b"⟩]

/-- The URL `https://example.com/?k=v1&k=v2`, whose two parameters share
the key `k`. -/
def urlDupKey : JSURL :=
  ⟨"https", "example.com", "/", [("k", "v1"), ("k", "v2")], some "k=v1&k=v2", none⟩

/-- The URL `https://example.com/?a=1&b=2`. -/
def urlAB : JSURL :=
  ⟨"https", "example.com", "/", [("a", "1"), ("b", "2")], some "a=1&b=2", none⟩

/-- The URL `https://example.com/?id=1`. -/
def urlId : JSURL :=
  ⟨"https", "example.com", "/", [("id", "1")], some "id=1", none⟩

/-- The URL `https://example.com/page?x=1`, the canonicalization of the
relative reference `/page?x=1` against the demo base. -/
def urlPageX : JSURL :=
  ⟨"https", "example.com", "/page", [("x", "1")], some "x=1", none⟩

/-- A fresh cleaner state holding the fallback rules. -/
def demoState : CState := initFreshState fallbackRules

/-! ## Claim theorems -/

/-- C5: for every query parameter and every RuleSet, the per-parameter
loop applies exactly the action of the first rule (in RuleSet order)
whose matcher accepts the key or the value, and no later rule: it
equals the `firstMatch`-directed action, leaving the URL untouched when
no rule matches. -/
theorem c5_first_match_wins (rules : List Rule) (kv : String × String) (u : JSURL) :
    processParam rules kv u =
      match firstMatch rules kv.1 kv.2 with
      | none => (u, false)
      | some r => (applyRule r kv.1 u, true) :=
  processParam_eq rules kv u

/-- C6 counterexample: in `https://example.com/?k=v1&k=v2` under the
single deletion rule matching `v1`, the parameter `(k, v2)` matches no
rule yet is absent from the rewritten URL's parameters, because
deleting `(k, v1)` removes every parameter named `k`. -/
theorem c6_counterexample :
    parseURL "https://example.com/?k=v1&k=v2" demoBase = some urlDupKey ∧
    ("k", "v2") ∈ urlDupKey.params ∧
    noRuleMatches rulesV1 "k" "v2" = true ∧
    ("k", "v2") ∉ (rewriteURL rulesV1 urlDupKey).1.params := by
  refine ⟨by decide, by decide, by decide, by decide⟩

/-- C6 (amended): a parameter matched by no rule appears unmodified in
the rewritten URL, provided every parameter sharing its key (itself
included) also matches no rule. -/
theorem c6_no_match_pass_through (rules : List Rule) (url : JSURL) (kv : String × String)
    (hm : kv ∈ url.params)
    (h : ∀ p ∈ url.params, p.1 = kv.1 → noRuleMatches rules p.1 p.2 = true) :
    kv ∈ (rewriteURL rules url).1.params := by
  unfold rewriteURL
  exact foldParams_mem_preserved hm h

/-- C6 witness: `id=1` survives a rewrite under the fallback rules. -/
theorem c6_witness :
    (("id", "1") ∈ urlId.params ∧
      ∀ p ∈ urlId.params, p.1 = "id" → noRuleMatches fallbackRules p.1 p.2 = true) ∧
    ("id", "1") ∈ (rewriteURL fallbackRules urlId).1.params :=
  ⟨⟨by decide, by decide⟩,
    c6_no_match_pass_through fallbackRules urlId ("id", "1") (by decide) (by decide)⟩

/-- C7 counterexample: in `https://example.com/?k=v1&k=v2` under a
deletion rule matching `v1` and a replacement rule matching `v2`, the
winning rule for `(k, v1)` has the empty replacement, yet the key `k`
is present in the output (the later sibling re-adds it via `set`). -/
theorem c7_counterexample :
    winnerRepl rulesV1V2 "k" "v1" = some "" ∧
    ("k", "v1") ∈ urlDupKey.params ∧
    lookupKey "k" (rewriteURL rulesV1V2 urlDupKey).1.params ≠ [] := by
  refine ⟨by decide, by decide, by decide⟩

/-- C7 (amended): when a parameter's key occurs exactly once in the
URL, the winning rule's action determines that key's pairs in the
output exactly: an empty replacement leaves no pair with the key, a
nonempty one leaves exactly the pair carrying the replacement. -/
theorem c7_delete_vs_replace (rules : List Rule) (url : JSURL)
    (kv : String × String) (repl : String)
    (hm : kv ∈ url.params)
    (hu : lookupKey kv.1 url.params = [kv])
    (hw : winnerRepl rules kv.1 kv.2 = some repl) :
    lookupKey kv.1 (rewriteURL rules url).1.params =
      (if repl = "" then [] else [(kv.1, repl)]) := by
  obtain ⟨l₁, l₂, hsplit⟩ := List.append_of_mem hm
  have hfl2 : (l₂.filter (fun p => decide (p.1 = kv.1))) = [] := by
    rw [hsplit] at hu
    unfold lookupKey at hu
    rw [List.filter_append, List.filter_cons, if_pos (by simp)] at hu
    rcases hfa : l₁.filter (fun p => decide (p.1 = kv.1)) with _ | ⟨x, xs⟩
    · rw [hfa] at hu
      simpa using hu
    · rw [hfa] at hu
      simp at hu
  have hl2 : ∀ p ∈ l₂, p.1 ≠ kv.1 := by
    intro p hp he
    have : p ∈ l₂.filter (fun p => decide (p.1 = kv.1)) :=
      List.mem_filter.mpr ⟨hp, by simpa using he⟩
    rw [hfl2] at this
    simp at this
  obtain ⟨r, hr, hrepl⟩ : ∃ r, firstMatch rules kv.1 kv.2 = some r ∧ r.replacement = repl := by
    unfold winnerRepl at hw
    rcases hfm : firstMatch rules kv.1 kv.2 with _ | r
    · rw [hfm] at hw; simp at hw
    · rw [hfm] at hw
      exact ⟨r, rfl, by simpa using hw⟩
  subst hrepl
  unfold rewriteURL
  rw [hsplit, foldParams_append, foldParams_cons, foldParams_lookup_frame hl2]
  show lookupKey kv.1
      (processParam rules kv (foldParams rules l₁ (url, false)).1).1.params = _
  rw [processParam_eq, hr]
  simp only []
  unfold applyRule
  by_cases hre : r.replacement = ""
  · rw [if_pos hre, if_pos hre]
    exact lookupKey_delete_self kv.1 _
  · rw [if_neg hre, if_neg hre]
    exact lookupKey_setParam_self kv.1 r.replacement _

/-- C7 witness: in `https://example.com/?a=1&b=2` under a deletion rule
for `a`, the key `a` is absent from the output parameters. -/
theorem c7_witness :
    (("a", "1") ∈ urlAB.params ∧ lookupKey "a" urlAB.params = [("a", "1")] ∧
      winnerRepl rulesAB "a" "1" = some "") ∧
    lookupKey "a" (rewriteURL rulesAB urlAB).1.params = [] :=
  ⟨⟨by decide, by decide, by decide⟩, by
    have := c7_delete_vs_replace rulesAB urlAB ("a", "1") "" (by decide) (by decide) (by decide)
    simpa using this⟩

/-- C8: a string that fails to parse as a URL relative to the base is
returned unchanged with `changed = false`; nothing is thrown and the
state (dedup cache, counter, rules) is untouched. -/
theorem c8_malformed_safe (b : String) (s : CState) (u : String)
    (h : parseURL u b = none) :
    cleanUrlStringF b s u = (u, false, s, false) := by
  unfold cleanUrlStringF
  by_cases hg : u = "" ∨ u ∈ s.processedUrls
  · rw [if_pos hg]
  · rw [if_neg hg, h]

/-- C8 witness: `https://` (an absolute-looking reference with an empty
host, which `new URL` rejects) is returned unchanged from a fresh
state. -/
theorem c8_witness :
    parseURL "https://" demoBase = none ∧
    cleanUrlStringF demoBase demoState "https://" = ("https://", false, demoState, false) :=
  ⟨by decide, c8_malformed_safe demoBase demoState "https://" (by decide)⟩

theorem compileAll_eq_none {compile : String → Option (String → Bool)}
    {stored : List RawRule}
    (h : ∃ rr ∈ stored, compile rr.pattern = none) :
    compileAll compile stored = none := by
  induction stored with
  | nil =>
    obtain ⟨rr, hm, _⟩ := h
    simp at hm
  | cons r rs ih =>
    obtain ⟨rr, hm, hno⟩ := h
    unfold compileAll
    rcases List.mem_cons.mp hm with he | hm2
    · have hcr : compileRule compile r = none := by
        unfold compileRule
        rw [← he, hno]
        rfl
      rw [hcr]
    · rw [ih ⟨rr, hm2, hno⟩]
      rcases compileRule compile r <;> rfl

/-- C1 counterexample: for the empty stored rule sequence, the compiler
yields the six built-in default rules rather than an empty RuleSet,
and rewriting `https://example.com/?fbclid=x` under them reports a
change, so rewriting is not a no-op. -/
theorem c1_counterexample :
    (loadConfig jsCompile []).map Rule.originalPattern ≠ [] ∧
    (cleanCore (loadConfig jsCompile []) demoBase "https://example.com/?fbclid=x").2 = true := by
  refine ⟨by decide, by decide⟩

/-- C1 (amended): an empty (or absent) stored rule sequence makes
`loadConfig` substitute the six built-in defaults, so the RuleSet is
the compiled default list, not empty; rewriting under a genuinely
empty RuleSet never errors and returns every URL with
`changed = false`. -/
theorem c1_empty_config (b u : String) :
    (loadConfig jsCompile []).map Rule.originalPattern =
      ["utm_.*", "fbclid", "gclid", "ref", "forcedownload", "download"] ∧
    (cleanCore [] b u).2 = false := by
  constructor
  · decide
  · unfold cleanCore
    rcases hp : parseURL u b with _ | url
    · rfl
    · simp only []
      have h0 : rewriteURL ([] : List Rule) url = (url, false) := by
        unfold rewriteURL
        exact foldParams_no_match
          (fun p _ => (rfl : noRuleMatches [] p.1 p.2 = true)) (url, false)
      rw [h0]

/-- C2 counterexample: with the invalid pattern `(` alongside the valid
rule `fbclid`, the compiler does not keep just the valid rule: the
whole mapping throws and the `catch` installs the five hardcoded
fallback rules. -/
theorem c2_counterexample :
    (loadConfig jsCompile [⟨"(", some ""⟩, ⟨"fbclid", some ""⟩]).map Rule.originalPattern =
      ["utm_.*", "fbclid", "gclid", "forcedownload", "download"] ∧
    (loadConfig jsCompile [⟨"(", some ""⟩, ⟨"fbclid", some ""⟩]).map Rule.originalPattern ≠
      ["fbclid"] := by
  refine ⟨by decide, by decide⟩

/-- C2 (amended): whenever some entry's pattern fails to compile, the
entire stored rule list is replaced by the five pre-compiled fallback
rules (no error propagates, but the remaining valid entries are not
kept). -/
theorem c2_invalid_pattern_fallback (compile : String → Option (String → Bool))
    (stored : List RawRule)
    (h : stored.any (fun rr => (compile rr.pattern).isNone) = true) :
    loadConfig compile stored = fallbackRules := by
  rw [List.any_eq_true] at h
  obtain ⟨rr, hrr, hno⟩ := h
  have hne : stored.isEmpty = false := by
    rcases stored with _ | ⟨x, xs⟩
    · simp at hrr
    · rfl
  have hfail : compileAll compile stored = none :=
    compileAll_eq_none ⟨rr, hrr, by simpa using hno⟩
  unfold loadConfig
  rw [hne]
  simp only [Bool.false_eq_true, if_false]
  rw [hfail]

/-- C2 witness: the fallback applies to `["(", "fbclid"]`. -/
theorem c2_witness :
    ([⟨"(", some ""⟩, ⟨"fbclid", some ""⟩] : List RawRule).any
      (fun rr => (jsCompile rr.pattern).isNone) = true ∧
    loadConfig jsCompile [⟨"(", some ""⟩, ⟨"fbclid", some ""⟩] = fallbackRules :=
  ⟨by decide,
    c2_invalid_pattern_fallback jsCompile [⟨"(", some ""⟩, ⟨"fbclid", some ""⟩] (by decide)⟩

/-- C3 counterexample: under `rulesYV` the first pass rewrites
`?k=v` to `?k=y`, and a second pass deletes `k` (the first rule matches
the value the second rule produced), so re-applying the rules changes
the already-rewritten URL. -/
theorem c3_counterexample :
    (cleanCore rulesYV demoBase
        (cleanCore rulesYV demoBase "https://example.com/?k=v").1).1 ≠
      (cleanCore rulesYV demoBase "https://example.com/?k=v").1 := by
  decide

/-- C3 (amended): rewriting is idempotent for RuleSets all of whose
replacements are empty (pure-deletion rules): re-applying such rules
to an already-rewritten URL returns it unchanged. -/
theorem c3_idempotent_deletions (rules : List Rule) (hAE : allDeletions rules)
    (b u : String) :
    (cleanCore rules b (cleanCore rules b u).1).1 = (cleanCore rules b u).1 := by
  rcases hp : parseURL u b with _ | url
  · have h1 : cleanCore rules b u = (u, false) := by
      unfold cleanCore
      rw [hp]
    rw [h1]
    show (cleanCore rules b u).1 = u
    rw [h1]
  · have hWF : urlWF url := parseURL_WF hp
    have h1 : cleanCore rules b u =
        (urlToString (rewriteURL rules url).1, (rewriteURL rules url).2) := by
      unfold cleanCore
      rw [hp]
    by_cases hch : (rewriteURL rules url).2 = true
    · have hWF2 : urlWF (rewriteURL rules url).1 := by
        unfold rewriteURL
        exact foldParams_WF_AE hAE url.params hWF
      have hparse2 : parseURL (urlToString (rewriteURL rules url).1) b =
          some (rewriteURL rules url).1 := urlToString_parse hWF2 b
      have hall : ∀ p ∈ (rewriteURL rules url).1.params,
          noRuleMatches rules p.1 p.2 = true := by
        intro p hp2
        rcases hfm : firstMatch rules p.1 p.2 with _ | r
        · exact (noRuleMatches_iff rules p.1 p.2).mpr hfm
        · exfalso
          have hp2' : p ∈ (foldParams rules url.params (url, false)).1.params := hp2
          have hmem : p ∈ url.params := by
            have hsub : (foldParams rules url.params
                ((url, false) : JSURL × Bool)).1.params.Sublist url.params :=
              foldParams_sublist_AE hAE url.params (url, false)
            exact hsub.subset hp2'
          exact foldParams_keyGone hAE hfm hmem p hp2' rfl
      have h2 : cleanCore rules b (urlToString (rewriteURL rules url).1) =
          (urlToString (rewriteURL rules url).1, false) := by
        unfold cleanCore
        rw [hparse2]
        simp only []
        have hfix : rewriteURL rules (rewriteURL rules url).1 =
            ((rewriteURL rules url).1, false) := by
          unfold rewriteURL
          exact foldParams_no_match hall _
        rw [hfix]
      rw [h1]
      show (cleanCore rules b (urlToString (rewriteURL rules url).1)).1 =
        urlToString (rewriteURL rules url).1
      rw [h2]
    · have hflag : (rewriteURL rules url).2 = false := by simpa using hch
      have hfix : (rewriteURL rules url).1 = url := by
        have h2 : (foldParams rules url.params (url, false)).2 = false := hflag
        exact (foldParams_flag_false h2).2
      have hparse2 : parseURL (urlToString url) b = some url := urlToString_parse hWF b
      have h2 : cleanCore rules b (urlToString url) = (urlToString url, false) := by
        unfold cleanCore
        rw [hparse2]
        simp only []
        have hrw : rewriteURL rules url = (url, false) := by
          have := Prod.mk.eta (p := rewriteURL rules url)
          rw [← this, hfix, hflag]
        rw [hrw]
      rw [h1, hfix]
      show (cleanCore rules b (urlToString url)).1 = urlToString url
      rw [h2]

/-- C3 witness: one deletion rule on `fbclid`, applied twice to
`https://example.com/?fbclid=x&id=1`. -/
theorem c3_witness :
    allDeletions rulesFbclid ∧
    (cleanCore rulesFbclid demoBase
        (cleanCore rulesFbclid demoBase "https://example.com/?fbclid=x&id=1").1).1 =
      (cleanCore rulesFbclid demoBase "https://example.com/?fbclid=x&id=1").1 :=
  ⟨by decide, c3_idempotent_deletions rulesFbclid (by decide) demoBase
    "https://example.com/?fbclid=x&id=1"⟩

theorem cleanUrlStringF_cache_hit {b : String} {s : CState} {u : String}
    (h : u ∈ s.processedUrls) : cleanUrlStringF b s u = (u, false, s, false) := by
  unfold cleanUrlStringF
  rw [if_pos (Or.inr h)]

theorem cuChanged_cases (b : String) (s : CState) (u : String) :
    (cuChanged b s u = true ∧
      (cuState b s u).processedUrls =
        addUrl (cuResult b s u) (addUrl u s.processedUrls)) ∨
    (cuChanged b s u = false ∧ cuState b s u = s) := by
  unfold cuChanged cuState cuResult cleanUrlStringF
  by_cases hg : u = "" ∨ u ∈ s.processedUrls
  · rw [if_pos hg]
    right
    exact ⟨rfl, rfl⟩
  · rw [if_neg hg]
    rcases hp : parseURL u b with _ | url
    · right
      exact ⟨rfl, rfl⟩
    · simp only []
      by_cases hch : (rewriteURL s.configRules url).2 = true
      · rw [if_pos hch]
        left
        exact ⟨rfl, rfl⟩
      · rw [if_neg hch]
        right
        exact ⟨rfl, rfl⟩

/-- C4 counterexample: with the dedup cache enabled (fresh state,
fallback rules), the first call on `https://example.com/?fbclid=x`
returns the cleaned `https://example.com/`, but the second call on the
identical string returns the original string itself — not the result
the first call produced. -/
theorem c4_counterexample :
    cuResult demoBase (cuState demoBase demoState "https://example.com/?fbclid=x")
        "https://example.com/?fbclid=x" ≠
      cuResult demoBase demoState "https://example.com/?fbclid=x" := by
  decide

/-- C4 (amended): when a call reports a change it caches both the
original and the cleaned string, so the second call on the identical
string short-circuits — it performs no rule matching and returns the
input string itself with the state untouched; when a call reports no
change, nothing is cached and the state is unchanged (so a repeat call
evaluates the same way and returns the same result). -/
theorem c4_dedup (b : String) (s : CState) (u : String) :
    (cuChanged b s u = true →
      cleanUrlStringF b (cuState b s u) u = (u, false, cuState b s u, false)) ∧
    (cuChanged b s u = false → cuState b s u = s ∧
      cleanUrlStringF b (cuState b s u) u = cleanUrlStringF b s u) := by
  constructor
  · intro h
    rcases cuChanged_cases b s u with ⟨_, hmem⟩ | ⟨hf, _⟩
    · apply cleanUrlStringF_cache_hit
      rw [hmem]
      exact mem_addUrl_of_mem _ (mem_addUrl_self u _)
    · rw [hf] at h
      exact absurd h (by simp)
  · intro h
    rcases cuChanged_cases b s u with ⟨ht, _⟩ | ⟨_, hs⟩
    · rw [ht] at h
      exact absurd h (by simp)
    · exact ⟨hs, by rw [hs]⟩

/-- C4 witness: a changed first call on `?fbclid=x` makes the second
call short-circuit. -/
theorem c4_witness :
    cuChanged demoBase demoState "https://example.com/?fbclid=x" = true ∧
    cleanUrlStringF demoBase
        (cuState demoBase demoState "https://example.com/?fbclid=x")
        "https://example.com/?fbclid=x" =
      ("https://example.com/?fbclid=x", false,
        cuState demoBase demoState "https://example.com/?fbclid=x", false) :=
  ⟨by decide,
    (c4_dedup demoBase demoState "https://example.com/?fbclid=x").1 (by decide)⟩

/-- C9: handling the reload-configuration command is equivalent to
running the initial sweep from a freshly initialized state holding the
newly compiled RuleSet: the old dedup cache and counter are discarded
entirely (no stale entry survives), the counter restarts at zero plus
the sweep's increments, and the rules in effect afterwards are exactly
the RuleSet recompiled from the stored configuration. -/
theorem c9_reload_config (compile : String → Option (String → Bool))
    (stored : List RawRule) (b : String) (anchors : List String) (s : CState) :
    reloadConfig compile stored b anchors s =
      cleanAllLinks b (initFreshState (loadConfig compile stored)) anchors ∧
    (reloadConfig compile stored b anchors s).2.configRules =
      loadConfig compile stored := by
  constructor
  · rfl
  · show (cleanAllLinks b (initFreshState (loadConfig compile stored)) anchors).2.configRules =
      loadConfig compile stored
    unfold cleanAllLinks
    simp only []
    rw [cleanAllLinks_configRules]
    rfl

/-- C10: an anchor whose href is not already in the dedup cache, parses
relative to the base, differs from its canonicalized serialization, and
has no parameter matched by any rule, is still rewritten to the
canonicalized absolute form and counted: the rewriter returns the
re-serialized URL (not the original string) on the no-match path. -/
theorem c10_canonicalize_counts (b : String) (s : CState) (href : String) (url : JSURL)
    (h1 : href ≠ "") (h2 : href ∉ s.processedUrls)
    (hp : parseURL href b = some url)
    (hnm : ∀ kv ∈ url.params, noRuleMatches s.configRules kv.1 kv.2 = true)
    (hne : urlToString url ≠ href) :
    cleanSingleLink b s href =
      (urlToString url, { s with cleanedLinksCount := s.cleanedLinksCount + 1 }) := by
  have hguard : ¬ (href = "" ∨ href ∈ s.processedUrls) := by
    rintro (he | hm)
    · exact h1 he
    · exact h2 hm
  have hF : cleanUrlStringF b s href = (urlToString url, false, s, true) := by
    unfold cleanUrlStringF
    rw [if_neg hguard, hp]
    simp only []
    have hrw : rewriteURL s.configRules url = (url, false) := by
      unfold rewriteURL
      exact foldParams_no_match hnm (url, false)
    rw [hrw]
    simp
  unfold cleanSingleLink
  rw [if_neg h1, hF]
  simp only []
  rw [if_neg hne]

/-- C10 witness: the relative href `/page?x=1` is rewritten to
`https://example.com/page?x=1` and counted, although no fallback rule
matches its parameter. -/
theorem c10_witness :
    (("/page?x=1" : String) ≠ "" ∧ "/page?x=1" ∉ demoState.processedUrls ∧
      parseURL "/page?x=1" demoBase = some urlPageX ∧
      (∀ kv ∈ urlPageX.params,
        noRuleMatches demoState.configRules kv.1 kv.2 = true) ∧
      urlToString urlPageX ≠ "/page?x=1") ∧
    cleanSingleLink demoBase demoState "/page?x=1" =
      ("https://example.com/page?x=1",
        { demoState with cleanedLinksCount := demoState.cleanedLinksCount + 1 }) :=
  ⟨⟨by decide, by decide, by decide, by decide, by decide⟩, by
    have := c10_canonicalize_counts demoBase demoState "/page?x=1" urlPageX
      (by decide) (by decide) (by decide) (by decide) (by decide)
    rw [this]
    have : urlToString urlPageX = "https://example.com/page?x=1" := by decide
    rw [this]⟩
